import Mathlib

/-!
Verification development for the quartorium repository.

The development shallowly embeds the core of the repository:
the qmd-to-ProseMirror document parser (src/backend/src/core/quartoParser.js)
and the cache key derivation helpers calculateCacheFilename and
calculateAssetCacheDir (test helper file, src/unnamed/part_000).
Strings are modelled as lists of characters; machine words are modelled
as natural numbers reduced modulo two to the power of the word width.
-/

namespace Quartorium

/-! ## Generic list-of-characters utilities -/

/-- Split a list on a separator character.  The result is always nonempty, and
interleaving the separator back recovers the original list. -/
def splitOnChar (sep : Char) : List Char → List (List Char)
  | [] => [[]]
  | c :: rest =>
    if c = sep then [] :: splitOnChar sep rest
    else (c :: (splitOnChar sep rest).headI) :: (splitOnChar sep rest).tail

/-- Join a list of chunks with a separator list between consecutive chunks. -/
def joinSep (sep : List Char) : List (List Char) → List Char
  | [] => []
  | [x] => x
  | x :: y :: rest => x ++ sep ++ joinSep sep (y :: rest)

/-- Index of the first occurrence of a pattern as a contiguous sublist. -/
def indexOfSub (pat : List Char) : List Char → Option Nat
  | [] => if pat.isEmpty then some 0 else none
  | c :: rest =>
    if pat.isPrefixOf (c :: rest) then some 0
    else (indexOfSub pat rest).map (· + 1)

/-! ## UTF-8 encoding (Node strings are hashed as their UTF-8 bytes) -/

/-- UTF-8 encoding of a single code point, as a list of byte values. -/
def utf8Char (ch : Char) : List Nat :=
  let n := ch.toNat
  if n < 128 then [n]
  else if n < 2048 then [192 + n / 64, 128 + n % 64]
  else if n < 65536 then [224 + n / 4096, 128 + n / 64 % 64, 128 + n % 64]
  else [240 + n / 262144, 128 + n / 4096 % 64, 128 + n / 64 % 64, 128 + n % 64]

/-- UTF-8 encoding of a list of characters. -/
def utf8Encode (s : List Char) : List Nat :=
  (s.map utf8Char).flatten

/-! ## MD5 (Node crypto.createHash, used for the file-path component)

A direct translation of the MD5 algorithm (RFC 1321) over natural numbers,
with 32-bit overflow made explicit by reduction modulo 4294967296. -/

def m32 : Nat := 4294967296

def add32 (a b : Nat) : Nat := (a + b) % m32

def rotl32 (x c : Nat) : Nat := (x * 2 ^ c + x / 2 ^ (32 - c)) % m32

def not32 (b : Nat) : Nat := 4294967295 - b

def mixF (b c d : Nat) : Nat := (b &&& c) ||| (not32 b &&& d)

def mixG (b c d : Nat) : Nat := (d &&& b) ||| (not32 d &&& c)

def mixH (b c d : Nat) : Nat := b ^^^ c ^^^ d

def mixI (b c d : Nat) : Nat := c ^^^ (b ||| not32 d)

/-- The 64 MD5 sine-derived constants. -/
def md5K : List Nat :=
  [0xd76aa478, 0xe8c7b756, 0x242070db, 0xc1bdceee,
   0xf57c0faf, 0x4787c62a, 0xa8304613, 0xfd469501,
   0x698098d8, 0x8b44f7af, 0xffff5bb1, 0x895cd7be,
   0x6b901122, 0xfd987193, 0xa679438e, 0x49b40821,
   0xf61e2562, 0xc040b340, 0x265e5a51, 0xe9b6c7aa,
   0xd62f105d, 0x02441453, 0xd8a1e681, 0xe7d3fbc8,
   0x21e1cde6, 0xc33707d6, 0xf4d50d87, 0x455a14ed,
   0xa9e3e905, 0xfcefa3f8, 0x676f02d9, 0x8d2a4c8a,
   0xfffa3942, 0x8771f681, 0x6d9d6122, 0xfde5380c,
   0xa4beea44, 0x4bdecfa9, 0xf6bb4b60, 0xbebfbc70,
   0x289b7ec6, 0xeaa127fa, 0xd4ef3085, 0x04881d05,
   0xd9d4d039, 0xe6db99e5, 0x1fa27cf8, 0xc4ac5665,
   0xf4292244, 0x432aff97, 0xab9423a7, 0xfc93a039,
   0x655b59c3, 0x8f0ccc92, 0xffeff47d, 0x85845dd1,
   0x6fa87e4f, 0xfe2ce6e0, 0xa3014314, 0x4e0811a1,
   0xf7537e82, 0xbd3af235, 0x2ad7d2bb, 0xeb86d391]

/-- The 64 MD5 per-round left-rotation amounts. -/
def md5S : List Nat :=
  [7, 12, 17, 22, 7, 12, 17, 22, 7, 12, 17, 22, 7, 12, 17, 22,
   5, 9, 14, 20, 5, 9, 14, 20, 5, 9, 14, 20, 5, 9, 14, 20,
   4, 11, 16, 23, 4, 11, 16, 23, 4, 11, 16, 23, 4, 11, 16, 23,
   6, 10, 15, 21, 6, 10, 15, 21, 6, 10, 15, 21, 6, 10, 15, 21]

/-- One MD5 round applied to the running state. -/
def md5Step (msg : List Nat) (st : Nat × Nat × Nat × Nat) (i : Nat) : Nat × Nat × Nat × Nat :=
  match st with
  | (a, b, c, d) =>
    let fg : Nat × Nat :=
      if i < 16 then (mixF b c d, i)
      else if i < 32 then (mixG b c d, (5 * i + 1) % 16)
      else if i < 48 then (mixH b c d, (3 * i + 5) % 16)
      else (mixI b c d, (7 * i) % 16)
    let newB :=
      add32 b (rotl32 ((a + fg.1 + md5K.getD i 0 + msg.getD fg.2 0) % m32) (md5S.getD i 0))
    (d, newB, b, c)

/-- Decode a chunk of bytes into little-endian 32-bit words. -/
def leWords : List Nat → List Nat
  | b0 :: b1 :: b2 :: b3 :: rest =>
    (b0 + 256 * b1 + 65536 * b2 + 16777216 * b3) :: leWords rest
  | _ => []

/-- Process one 64-byte chunk. -/
def md5Chunk (st : Nat × Nat × Nat × Nat) (chunk : List Nat) : Nat × Nat × Nat × Nat :=
  let msg := leWords chunk
  match (List.range 64).foldl (md5Step msg) st with
  | (a, b, c, d) => (add32 st.1 a, add32 st.2.1 b, add32 st.2.2.1 c, add32 st.2.2.2 d)

/-- Little-endian byte decomposition of a 32-bit word. -/
def leBytes4 (x : Nat) : List Nat :=
  [x % 256, x / 256 % 256, x / 65536 % 256, x / 16777216 % 256]

/-- Little-endian byte decomposition of a 64-bit length field. -/
def leBytes8 (x : Nat) : List Nat :=
  [x % 256, x / 2 ^ 8 % 256, x / 2 ^ 16 % 256, x / 2 ^ 24 % 256,
   x / 2 ^ 32 % 256, x / 2 ^ 40 % 256, x / 2 ^ 48 % 256, x / 2 ^ 56 % 256]

/-- MD5 padding: a 0x80 byte, zeros to 56 mod 64, then the bit length. -/
def padMessage (bytes : List Nat) : List Nat :=
  let len := bytes.length
  let zeros := (119 - len % 64) % 64
  bytes ++ 128 :: List.replicate zeros 0 ++ leBytes8 (len * 8)

/-- Split a padded message into 64-byte chunks; fuel-driven so that it
computes by kernel reduction. -/
def toChunksF : Nat → List Nat → List (List Nat)
  | 0, _ => []
  | _ + 1, [] => []
  | f + 1, c :: rest => (c :: rest).take 64 :: toChunksF f ((c :: rest).drop 64)

def md5InitState : Nat × Nat × Nat × Nat := (0x67452301, 0xefcdab89, 0x98badcfe, 0x10325476)

/-- MD5 digest of a byte list, as 16 bytes. -/
def md5Bytes (bytes : List Nat) : List Nat :=
  let padded := padMessage bytes
  let r := (toChunksF padded.length padded).foldl md5Chunk md5InitState
  leBytes4 r.1 ++ leBytes4 r.2.1 ++ leBytes4 r.2.2.1 ++ leBytes4 r.2.2.2

def hexCharset : List Char := "0123456789abcdef".toList

def hexChar (n : Nat) : Char := hexCharset.getD n '0'

/-- Lowercase hex rendering of a byte list (two digits per byte). -/
def hexOfBytes : List Nat → List Char
  | [] => []
  | b :: rest => hexChar (b / 16 % 16) :: hexChar (b % 16) :: hexOfBytes rest

/-- crypto.createHash of the UTF-8 bytes of a string, hex digest:
the file-path component of the cache filename. -/
def md5hex (s : List Char) : List Char := hexOfBytes (md5Bytes (utf8Encode s))

/-! ## POSIX path handling (Node path.join, path.normalize, path.parse) -/

/-- One step of the segment normalization stack used by path.posix.normalize:
empty and dot segments are skipped, a dot-dot segment pops the stack (or is kept
when the path is relative and the stack holds no real segment), anything else is
pushed. -/
def normStep (allowAboveRoot : Bool) (acc : List (List Char)) (seg : List Char) :
    List (List Char) :=
  if seg = [] then acc
  else if seg = ['.'] then acc
  else if seg = ['.', '.'] then
    match acc with
    | [] => if allowAboveRoot then [seg] else []
    | a :: rest => if a = ['.', '.'] then seg :: a :: rest else rest
  else seg :: acc

/-- Reattach the leading separator of an absolute path and the trailing
separator to the normalized core, with the dot fallbacks of an empty core. -/
def normAssemble (isAbs hasTrail : Bool) (core : List Char) : List Char :=
  if core = [] then
    if isAbs then ['/'] else if hasTrail then ['.', '/'] else ['.']
  else (if isAbs then '/' :: core else core) ++ (if hasTrail then ['/'] else [])

/-- Node path.posix.normalize: resolves dot and dot-dot segments, collapses
repeated separators, keeps a leading separator of an absolute path and a
trailing separator of a nonempty result. -/
def normalizePath (p : List Char) : List Char :=
  if p = [] then ['.']
  else
    normAssemble (p.headI == '/') (p.getLast? == some '/')
      (joinSep ['/'] (((splitOnChar '/' p).foldl (normStep (!(p.headI == '/'))) []).reverse))

/-- Node path.posix.join: drop empty arguments, interleave the separator,
normalize the result. -/
def pathJoin (parts : List (List Char)) : List Char :=
  let joined := joinSep ['/'] (parts.filter (fun q => !q.isEmpty))
  if joined = [] then ['.'] else normalizePath joined

/-- The basename of a POSIX path (ignoring trailing separators), as in
Node path.posix.parse. -/
def baseNameOf (s : List Char) : List Char :=
  let t := (s.reverse.dropWhile (fun c => c == '/')).reverse
  (splitOnChar '/' t).getLastD []

/-- Node path.posix.parse(p).name: the basename with a final extension removed;
a dot in the first position does not start an extension, and a bare dot-dot
basename is kept whole. -/
def parseNameOf (s : List Char) : List Char :=
  let base := baseNameOf s
  if base = ['.', '.'] then base
  else
    match base.reverse.findIdx? (fun c => c == '.') with
    | none => base
    | some rid =>
      let i := base.length - 1 - rid
      if i = 0 then base else base.take i

/-! ## Cache key derivation (src/unnamed/part_000)

The module constants of the test helper file depend only on the directory of
the file itself (Node gives it as a per-install constant); the embedding takes
that directory as the explicit argument dirname. -/

/-- CACHE_DIR = path.join(dirname, ../cache). -/
def cacheDirOf (dirname : List Char) : List Char :=
  pathJoin [dirname, "../cache".toList]

/-- CACHE_DIR_RENDERED_DOCS = path.join(CACHE_DIR, rendered_docs). -/
def cacheDirRenderedDocsOf (dirname : List Char) : List Char :=
  pathJoin [cacheDirOf dirname, "rendered_docs".toList]

/-- calculateCacheFilename (src/unnamed/part_000, lines 57 to 61): the cache
entry path, built from the repo id, the md5 hex digest of the document file
path, and the commit hash, inside the rendered-documents cache root. -/
def calculateCacheFilename (dirname repoId docFilepath commitHash : List Char) : List Char :=
  pathJoin [cacheDirRenderedDocsOf dirname,
    repoId ++ "-".toList ++ md5hex docFilepath ++ "-".toList ++ commitHash ++ ".json".toList]

/-- calculateAssetCacheDir (src/unnamed/part_000, lines 63 to 65): the asset
cache directory for a document at a commit. -/
def calculateAssetCacheDir (dirname repoId docFilename commitHash : List Char) : List Char :=
  pathJoin [cacheDirOf dirname, "assets".toList, repoId, commitHash,
    parseNameOf docFilename ++ "_files".toList]

/-- Ambient process state that a non-deterministic implementation could read:
wall-clock time, the process id, and the install directory of the code. -/
structure ProcessEnv where
  wallClockMillis : Nat
  processId : Nat
  dirname : List Char

/-- calculateCacheFilename as invoked inside a running process: of the whole
ambient state it reads only the install directory (through CACHE_DIR). -/
def calculateCacheFilenameCall (env : ProcessEnv) (repoId docFilepath commitHash : List Char) :
    List Char :=
  calculateCacheFilename env.dirname repoId docFilepath commitHash

/-- calculateAssetCacheDir as invoked inside a running process. -/
def calculateAssetCacheDirCall (env : ProcessEnv) (repoId docFilename commitHash : List Char) :
    List Char :=
  calculateAssetCacheDir env.dirname repoId docFilename commitHash

/-- A clean path segment: nonempty, separator-free and not a dot segment.
The naming claims about the cache layout are stated for clean components. -/
def cleanSeg (s : List Char) : Prop :=
  s ≠ [] ∧ '/' ∉ s ∧ s ≠ ['.'] ∧ s ≠ ['.', '.']

/-- A normalized absolute directory path: starts with the separator, does not
end with it, and all its segments are clean. -/
def rootOk (root : List Char) : Prop :=
  root.headI = '/' ∧ root ≠ [] ∧ root.getLast? ≠ some '/' ∧
    ∀ seg ∈ splitOnChar '/' root.tail, cleanSeg seg

instance (s : List Char) : Decidable (cleanSeg s) := by
  unfold cleanSeg
  infer_instance

instance (root : List Char) : Decidable (rootOk root) := by
  unfold rootOk cleanSeg
  infer_instance

/-! ## Document model

mdast blocks and inlines as remark produces them and as quartoParser.js reads
them, and the ProseMirror-style nodes the parser emits. -/

/-- Inline mdast nodes.  Nodes with a literal value expose it the way the JS
property read child.value does; emphasis and strong carry children and no
value. -/
inductive MdastInline where
  | text : List Char → MdastInline
  | inlineCode : List Char → MdastInline
  | emphasis : List MdastInline → MdastInline
  | strong : List MdastInline → MdastInline

/-- The JS property read child.value: a literal value for text and inlineCode,
undefined (none) for container inlines. -/
def jsInlineValue : MdastInline → Option (List Char)
  | .text v => some v
  | .inlineCode v => some v
  | .emphasis _ => none
  | .strong _ => none

/-- Top-level mdast blocks.  code carries node.lang (null when the fence has no
info string) and node.value; other stands for every block kind the loop does
not handle (lists, blockquotes, tables, thematic breaks, ...), tagged with its
type name. -/
inductive MdastBlock where
  | heading : Nat → List MdastInline → MdastBlock
  | paragraph : List MdastInline → MdastBlock
  | code : Option (List Char) → List Char → MdastBlock
  | other : List Char → MdastBlock

/-- The output field of a quartoBlock: rendered HTML on success, an error
payload when the external Chunk Renderer failed. -/
inductive ChunkOutput where
  | html : List Char → ChunkOutput
  | err : List Char → ChunkOutput
deriving DecidableEq, Repr

/-- A ProseMirror text leaf: its text and the commentIds of its comment marks
(the only mark kind the parser emits). -/
structure PMTextNode where
  text : List Char
  marks : List (List Char)
deriving DecidableEq, Repr

/-- ProseMirror-style nodes emitted by the parser. -/
inductive PMNode where
  | heading : Nat → List PMTextNode → PMNode
  | paragraph : List PMTextNode → PMNode
  | quartoBlock : List Char → List Char → ChunkOutput → PMNode
deriving DecidableEq, Repr

/-- The returned document: content nodes plus the YAML front matter attached as
a document attribute (none when the document has no front-matter block; the
YAML payload is kept as raw text). -/
structure PMDoc where
  content : List PMNode
  yaml : Option (List Char)
deriving DecidableEq, Repr

/-- One extracted appendix comment. -/
structure CommentEntry where
  ident : List Char
  body : List Char
deriving DecidableEq, Repr

/-- The external chunk-execution engine: may succeed with HTML or fail. -/
abbrev ChunkExec := List Char → List Char → Except (List Char) (List Char)

/-! ## The comment-span scanner (quartoParser.js, lines 46 to 69)

The source scans plain text runs with the global regex

  \[([^\]]+)\]\{(.comment)\s+ref="([^"]+)"\}

Note the unescaped dot in the class position: the regex accepts any single
non-line-terminator character where the documented marker syntax has the
literal dot. -/

/-- The characters matched by the regex class backslash-s in JS. -/
def jsWhitespaceChars : List Char :=
  [' ', '\t', '\n', '\r', '\x0b', '\x0c',
   Char.ofNat 0xa0, Char.ofNat 0x1680, Char.ofNat 0x2000, Char.ofNat 0x2001,
   Char.ofNat 0x2002, Char.ofNat 0x2003, Char.ofNat 0x2004, Char.ofNat 0x2005,
   Char.ofNat 0x2006, Char.ofNat 0x2007, Char.ofNat 0x2008, Char.ofNat 0x2009,
   Char.ofNat 0x200a, Char.ofNat 0x2028, Char.ofNat 0x2029, Char.ofNat 0x202f,
   Char.ofNat 0x205f, Char.ofNat 0x3000, Char.ofNat 0xfeff]

def jsWhitespace (c : Char) : Bool := jsWhitespaceChars.contains c

/-- Consume one expected character. -/
def expectChar (c : Char) : List Char → Option (List Char)
  | x :: rest => if x == c then some rest else none
  | [] => none

/-- Consume an expected literal prefix. -/
def expectLit (pat s : List Char) : Option (List Char) :=
  if pat.isPrefixOf s then some (s.drop pat.length) else none

/-- Consume a nonempty maximal run of characters satisfying the class. -/
def takeClass1 (p : Char → Bool) (s : List Char) : Option (List Char × List Char) :=
  if s.takeWhile p = [] then none else some (s.takeWhile p, s.dropWhile p)

/-- The class position of the marker pattern: with exact = true only the
literal dot (the form the spec documents); with exact = false any character
other than a line terminator, which is what the unescaped dot of the source
regex accepts. -/
def classChar (exact : Bool) (c : Char) : Bool :=
  if exact then c == '.'
  else !(c == '\n' || c == '\r' || c == Char.ofNat 0x2028 || c == Char.ofNat 0x2029)

/-- The class position step: one character accepted by the class. -/
def expectClass (exact : Bool) : List Char → Option (List Char)
  | c :: t => if classChar exact c then some t else none
  | [] => none

/-- Match one comment-span marker at the start of the input, following the
source regex: an opening bracket, a nonempty bracket-free inner text, the
closing bracket, an opening brace, the class position, the literal comment,
mandatory whitespace, the literal ref opening, a nonempty quote-free id, and
the closing quote and brace.  Returns the inner text, the comment id and the
rest of the input after the marker. -/
def matchMarkerCore (exact : Bool) (s : List Char) :
    Option (List Char × List Char × List Char) :=
  (expectChar '[' s).bind fun t =>
    (takeClass1 (fun c => !(c == ']')) t).bind fun inner1 =>
      (expectChar ']' inner1.2).bind fun t1b =>
        (expectChar '\x7b' t1b).bind fun t2 =>
          (expectClass exact t2).bind fun t3 =>
            (expectLit "comment".toList t3).bind fun t4 =>
              (takeClass1 jsWhitespace t4).bind fun ws5 =>
                (expectLit "ref=\"".toList ws5.2).bind fun t6 =>
                  (takeClass1 (fun c => !(c == '"')) t6).bind fun ident7 =>
                    (expectChar '"' ident7.2).bind fun t8 =>
                      (expectChar '\x7d' t8).map fun rest =>
                        (inner1.1, ident7.1, rest)

/-- Leftmost marker match: the text before the first position where the marker
pattern matches, the match itself, and the rest after it (regex exec semantics
with a global flag). -/
def findMarkerG (exact : Bool) : List Char → Option (List Char × List Char × List Char × List Char)
  | [] => none
  | c :: t =>
    match matchMarkerCore exact (c :: t) with
    | some (inner, ident, rest) => some ([], inner, ident, rest)
    | none => (findMarkerG exact t).map fun r => (c :: r.1, r.2.1, r.2.2.1, r.2.2.2)

/-- The span-detection loop over one plain text run, fuel-driven so that it
computes by kernel reduction: text before a match is pushed unmarked if
nonempty, the matched inner text is pushed with a comment mark carrying the
matched id, and scanning resumes after the marker; trailing text is pushed if
nonempty. -/
def scanTextF : Nat → List Char → List PMTextNode
  | 0, _ => []
  | fuel + 1, s =>
    match findMarkerG false s with
    | none => if s = [] then [] else [⟨s, []⟩]
    | some (before, inner, ident, rest) =>
      (if before = [] then [] else [⟨before, []⟩]) ++ ⟨inner, [ident]⟩ :: scanTextF fuel rest

/-- The span-detection pass of quartoParser.js on one text child. -/
def scanText (s : List Char) : List PMTextNode := scanTextF s.length s

/-- The concatenation of the texts of emitted segments. -/
def concatTexts (segs : List PMTextNode) : List Char := (segs.map (fun g => g.text)).flatten

/-- Rewriting of a text run induced by the source scanner: every marker the
source regex matches is replaced by its inner text, all other characters are
kept. -/
def replaceMarkersF : Nat → List Char → List Char
  | 0, s => s
  | fuel + 1, s =>
    match findMarkerG false s with
    | none => s
    | some (before, inner, _, rest) => before ++ inner ++ replaceMarkersF fuel rest

def replaceMarkers (s : List Char) : List Char := replaceMarkersF s.length s

/-- Rewriting of a text run induced by the documented marker syntax: every
marker of the exact form with the literal dot is replaced by its inner text.
This follows the words of the spec and is compared against the behavior of the
source scanner. -/
def replaceExactMarkersF : Nat → List Char → List Char
  | 0, s => s
  | fuel + 1, s =>
    match findMarkerG true s with
    | none => s
    | some (before, inner, _, rest) => before ++ inner ++ replaceExactMarkersF fuel rest

def replaceExactMarkers (s : List Char) : List Char := replaceExactMarkersF s.length s

/-! ## The node loop of qmdToProseMirror (quartoParser.js, lines 13 to 83) -/

/-- Modelled from the spec: renderChunk lives in
src/backend/src/core/quartoRunner.js, which is not included under src/.  Per
the spec (sections 4.4, 6 and 7), the external Chunk Renderer may fail and the
failure "must be representable as output, not as a thrown fatal error": the
call resolves with the rendered HTML on success and with an error payload as
its output value on failure. -/
def renderChunk (exec : ChunkExec) (code chunkOptions : List Char) : ChunkOutput :=
  match exec code chunkOptions with
  | Except.ok h => ChunkOutput.html h
  | Except.error e => ChunkOutput.err e

/-- JS truthiness of node.lang: a nonempty language string. -/
def langTruthy : Option (List Char) → Bool
  | none => false
  | some l => !l.isEmpty

/-- Segments pushed for one paragraph inline child: text children go through
the span-detection pass, any other child is pushed as plain text with its
literal value (empty when the child has none). -/
def inlinePieces (child : MdastInline) : List PMTextNode :=
  match child with
  | .text v => scanText v
  | _ => [⟨(jsInlineValue child).getD [], []⟩]

/-- Nodes pushed for one top-level mdast block, following the loop body:
language-tagged code blocks render through the Chunk Renderer into a
quartoBlock; headings emit one heading whose single text child joins the
direct children value reads; paragraphs emit one paragraph from the inline
pieces; everything else falls through and pushes nothing. -/
def emitNode (exec : ChunkExec) (node : MdastBlock) : List PMNode :=
  match node with
  | .code lang value =>
    if langTruthy lang then
      [.quartoBlock value (lang.getD []) (renderChunk exec value (lang.getD []))]
    else []
  | .heading depth children =>
    [.heading depth [⟨(children.map (fun c => (jsInlineValue c).getD [])).flatten, []⟩]]
  | .paragraph children => [.paragraph ((children.map inlinePieces).flatten)]
  | .other _ => []

/-- The for loop over tree.children, pushing nodes in source order. -/
def processNodes (exec : ChunkExec) : List MdastBlock → List PMNode
  | [] => []
  | node :: rest => emitNode exec node ++ processNodes exec rest

/-- Per-block conversion as the spec describes it: a heading, a paragraph or a
language-tagged code block produces exactly one node, every other block kind
produces none.  Stated separately from the accumulating loop so the two can be
compared. -/
def convertBlock (exec : ChunkExec) (node : MdastBlock) : Option PMNode :=
  match node with
  | .code lang value =>
    if langTruthy lang then
      some (.quartoBlock value (lang.getD []) (renderChunk exec value (lang.getD [])))
    else none
  | .heading depth children =>
    some (.heading depth [⟨(children.map (fun c => (jsInlineValue c).getD [])).flatten, []⟩])
  | .paragraph children => some (.paragraph ((children.map inlinePieces).flatten))
  | .other _ => none

/-- The text the JS heading branch computes: the join of the direct children
value reads, a child without a value contributing the empty string.  Stated as
a recursion for comparison with the loop. -/
def headingDirectText : List MdastInline → List Char
  | [] => []
  | c :: rest => (jsInlineValue c).getD [] ++ headingDirectText rest

/-- The flattened plain text of inline content as the spec words it: container
inlines contribute the text of their children. -/
def flattenInlines : List MdastInline → List Char
  | [] => []
  | .text v :: rest => v ++ flattenInlines rest
  | .inlineCode v :: rest => v ++ flattenInlines rest
  | .emphasis cs :: rest => flattenInlines cs ++ flattenInlines rest
  | .strong cs :: rest => flattenInlines cs ++ flattenInlines rest

/-! ## Front matter (the gray-matter dependency)

Models the external gray-matter library on the cases the parser meets: a
document opening with a dash-dash-dash line has everything up to the next such
line split off as front matter, with the body starting right after the closing
line.  The YAML payload is kept as raw text (its further decoding does not
matter to any claim); a missing closing line is treated as absent front
matter, matching the recovery the spec asks for on malformed input. -/

def fmDelim : List Char := "---".toList

def matterSplit (s : List Char) : Option (List Char) × List Char :=
  match splitOnChar '\n' s with
  | [] => (none, s)
  | first :: rest =>
    if first = fmDelim then
      let fm := rest.takeWhile (fun l => !(l == fmDelim))
      match rest.dropWhile (fun l => !(l == fmDelim)) with
      | [] => (none, s)
      | _ :: rest2 => (some (joinSep ['\n'] fm), joinSep ['\n'] rest2)
    else (none, s)

/-! ## Markdown block structure (the remark dependency)

Models the external remark markdown parser on the block constructs this
development exercises: ATX headings, backtick-fenced code blocks and
paragraphs separated by blank lines, with other inline markup inactive in the
concrete documents used here (their paragraph and heading content is a single
text node carrying the literal text, which is exactly what remark produces for
text with no active inline construct). -/

def isBlankLine (l : List Char) : Bool := l.all (fun c => c == ' ' || c == '\t')

def headingDepthOf (l : List Char) : Nat := (l.takeWhile (fun c => c == '#')).length

def isHeadingLine (l : List Char) : Bool :=
  let d := headingDepthOf l
  decide (1 ≤ d) && decide (d ≤ 6) && ((l.drop d).isEmpty || ((l.drop d).headI == ' '))

def isFenceOpen (l : List Char) : Bool := "```".toList.isPrefixOf l

def isFenceClose (l : List Char) : Bool :=
  decide (3 ≤ (l.takeWhile (fun c => c == '`')).length) &&
    (l.dropWhile (fun c => c == '`')).all (fun c => c == ' ')

/-- Inline content of a heading or paragraph: a single text node (empty
content for an empty heading). -/
def inlineOf (txt : List Char) : List MdastInline :=
  if txt = [] then [] else [MdastInline.text txt]

/-- Block grouping over the document lines, fuel-driven so that it computes by
kernel reduction. -/
def parseBlocksF : Nat → List (List Char) → List MdastBlock
  | 0, _ => []
  | fuel + 1, lines =>
    match lines with
    | [] => []
    | l :: rest =>
      if isBlankLine l then parseBlocksF fuel rest
      else if isHeadingLine l then
        let d := headingDepthOf l
        MdastBlock.heading d (inlineOf ((l.drop d).dropWhile (fun c => c == ' '))) ::
          parseBlocksF fuel rest
      else if isFenceOpen l then
        let info := (l.drop 3).dropWhile (fun c => c == ' ')
        let lang := info.takeWhile (fun c => !(c == ' ' || c == '\t'))
        let inner := rest.takeWhile (fun x => !isFenceClose x)
        let after := (rest.dropWhile (fun x => !isFenceClose x)).tail
        MdastBlock.code (if lang = [] then none else some lang) (joinSep ['\n'] inner) ::
          parseBlocksF fuel after
      else
        let more := rest.takeWhile
          (fun x => !(isBlankLine x || isHeadingLine x || isFenceOpen x))
        let after := rest.dropWhile
          (fun x => !(isBlankLine x || isHeadingLine x || isFenceOpen x))
        MdastBlock.paragraph (inlineOf (joinSep ['\n'] (l :: more))) :: parseBlocksF fuel after

/-- remark().parse of the markdown body, top-level children. -/
def remarkParse (s : List Char) : List MdastBlock :=
  let lines := splitOnChar '\n' s
  parseBlocksF lines.length lines

/-! ## Comment appendix extraction -/

/-- The reserved opening delimiter of the trailing comment appendix. -/
def commentsOpen : List Char := "\n```comments\n".toList

/-- One appendix line of the form id, colon, space, body. -/
def parseCommentLine (l : List Char) : Option CommentEntry :=
  let idPart := l.takeWhile (fun c => !(c == ':'))
  match l.dropWhile (fun c => !(c == ':')) with
  | ':' :: rest => some ⟨idPart, rest.dropWhile (fun c => c == ' ')⟩
  | _ => none

/-- Modelled from the spec: extractCommentsAppendix lives in
src/backend/src/core/commentUtils.js, which is not included under src/.  Per
the spec (section 4.3), the source appends a clearly delimited trailing block
of review comments (a fenced block with a reserved tag); the extractor splits
it off without altering the remaining text, and returns no comments plus the
unchanged input when the appendix is absent. -/
def extractCommentsAppendix (raw : List Char) : List CommentEntry × List Char :=
  match indexOfSub commentsOpen raw with
  | none => ([], raw)
  | some i =>
    let after := raw.drop (i + commentsOpen.length)
    let lines := (splitOnChar '\n' after).takeWhile (fun l => !(l == "```".toList))
    (lines.filterMap parseCommentLine, raw.take i)

/-! ## The parse operation qmdToProseMirror (quartoParser.js, lines 6 to 96) -/

/-- qmdToProseMirror: extract the trailing comment appendix, split the YAML
front matter from the markdown body, parse the body into mdast blocks, run the
node loop, and return the document (front matter attached as the yaml
attribute of the doc node) together with the extracted comments. -/
def qmdToProseMirror (exec : ChunkExec) (qmd : List Char) : PMDoc × List CommentEntry :=
  let extracted := extractCommentsAppendix qmd
  let split := matterSplit extracted.2
  (⟨processNodes exec (remarkParse split.2), split.1⟩, extracted.1)

/-! ## Concrete fixtures used by the claim theorems -/

/-- A chunk executor that always succeeds with empty output. -/
def execOk : ChunkExec := fun _ _ => Except.ok []

/-- A chunk executor that always fails. -/
def execBoom : ChunkExec := fun _ _ => Except.error "boom".toList

/-- The scenario document of the spec: a level-one heading, a paragraph with
one comment span, and an appendix entry for comment c1. -/
def qmdScenario : List Char :=
  "# T\nHello [world]\x7b.comment ref=\"c1\"\x7d\n```comments\nc1: Looks good\n```\n".toList

/-- A document whose single executable chunk fails to render. -/
def qmdFailingChunk : List Char := "```r\n1+1\n```\n\nHi".toList

/-- A text run with a pseudo-marker whose class position holds an X instead of
the documented dot. -/
def pseudoMarkerRun : List Char := "[w]\x7bXcomment ref=\"c1\"\x7d".toList

/-- A second text run of the same shape, with a different class character. -/
def pseudoMarkerRun2 : List Char := "before [w]\x7bYcomment ref=\"q\"\x7d after".toList

/-- A heading child list holding a plain text child and an emphasis child. -/
def emphasisHeadingChildren : List MdastInline :=
  [MdastInline.text "a ".toList, MdastInline.emphasis [MdastInline.text "b".toList]]

/-- A document opening with a well-formed YAML front-matter block. -/
def qmdFrontMatter : List Char := "---\ntitle: x\n---\n# H\nBody".toList

/-! # Theorems

Supporting lemmas first, then the claim theorems. -/

/-! ## List utility lemmas -/

theorem splitOnChar_ne_nil (sep : Char) (s : List Char) : splitOnChar sep s ≠ [] := by
  induction s with
  | nil => simp [splitOnChar]
  | cons c rest ih =>
    simp only [splitOnChar]
    split <;> simp

theorem joinSep_splitOnChar (sep : Char) (s : List Char) :
    joinSep [sep] (splitOnChar sep s) = s := by
  induction s with
  | nil => simp [splitOnChar, joinSep]
  | cons c rest ih =>
    rcases h : splitOnChar sep rest with _ | ⟨t, ts⟩
    · exact absurd h (splitOnChar_ne_nil sep rest)
    · rw [h] at ih
      simp only [splitOnChar, h]
      by_cases hc : c = sep
      · subst hc
        simp only [if_pos rfl]
        cases ts <;> simp_all [joinSep]
      · simp only [if_neg hc]
        cases ts <;> simp_all [joinSep]

theorem splitOnChar_append_sep (sep : Char) (a b : List Char) :
    splitOnChar sep (a ++ sep :: b) = splitOnChar sep a ++ splitOnChar sep b := by
  induction a with
  | nil =>
    rcases h : splitOnChar sep b with _ | ⟨t, ts⟩
    · exact absurd h (splitOnChar_ne_nil sep b)
    · simp [splitOnChar, h]
  | cons c rest ih =>
    rcases h : splitOnChar sep rest with _ | ⟨t, ts⟩
    · exact absurd h (splitOnChar_ne_nil sep rest)
    · rw [h] at ih
      simp only [List.cons_append, splitOnChar, ih, h, List.cons_append]
      split <;> simp [ih]

theorem splitOnChar_of_not_mem (sep : Char) (s : List Char) (h : sep ∉ s) :
    splitOnChar sep s = [s] := by
  induction s with
  | nil => simp [splitOnChar]
  | cons c rest ih =>
    simp only [List.mem_cons, not_or] at h
    have hcs : ¬ c = sep := fun hc => h.1 hc.symm
    simp [splitOnChar, ih h.2, hcs]

theorem mem_splitOnChar_not_mem (sep : Char) (s : List Char) :
    ∀ seg ∈ splitOnChar sep s, sep ∉ seg := by
  induction s with
  | nil =>
    intro seg hseg
    simp [splitOnChar] at hseg
    simp [hseg]
  | cons c rest ih =>
    intro seg hseg
    rcases h : splitOnChar sep rest with _ | ⟨t, ts⟩
    · exact absurd h (splitOnChar_ne_nil sep rest)
    · rw [h] at ih
      simp only [splitOnChar, h] at hseg
      by_cases hc : c = sep
      · rw [if_pos hc] at hseg
        rcases List.mem_cons.mp hseg with h1 | h2
        · simp [h1]
        · exact ih seg h2
      · rw [if_neg hc] at hseg
        rcases List.mem_cons.mp hseg with h1 | h2
        · subst h1
          intro hmem
          rcases List.mem_cons.mp hmem with h3 | h4
          · exact hc h3.symm
          · exact ih t (by simp) h4
        · exact ih seg (List.mem_cons_of_mem t (by simpa using h2))

theorem joinSep_cons (sep x : List Char) (ys : List (List Char)) (h : ys ≠ []) :
    joinSep sep (x :: ys) = x ++ sep ++ joinSep sep ys := by
  cases ys with
  | nil => contradiction
  | cons y rest => rfl

theorem joinSep_ne_nil (sep : List Char) (xs : List (List Char)) (hne : xs ≠ [])
    (h : ∀ x ∈ xs, x ≠ []) : joinSep sep xs ≠ [] := by
  cases xs with
  | nil => contradiction
  | cons x rest =>
    cases rest with
    | nil => simpa [joinSep] using h x (by simp)
    | cons y ys =>
      have hx := h x (by simp)
      simp [joinSep, hx]

theorem joinSep_append (sep : List Char) (a b : List (List Char)) (ha : a ≠ []) (hb : b ≠ []) :
    joinSep sep (a ++ b) = joinSep sep a ++ sep ++ joinSep sep b := by
  induction a with
  | nil => contradiction
  | cons x xs ih =>
    cases xs with
    | nil => simp [joinSep_cons _ _ _ hb, joinSep]
    | cons y ys =>
      rw [List.cons_append, joinSep_cons _ _ _ (by simp), ih (by simp),
        show joinSep sep (x :: y :: ys) = x ++ sep ++ joinSep sep (y :: ys) from rfl]
      simp [List.append_assoc]

theorem splitOnChar_joinSep (segs : List (List Char)) (hne : segs ≠ [])
    (h : ∀ s ∈ segs, '/' ∉ s) :
    splitOnChar '/' (joinSep ['/'] segs) = segs := by
  induction segs with
  | nil => contradiction
  | cons x xs ih =>
    cases xs with
    | nil => simp [joinSep, splitOnChar_of_not_mem '/' x (h x (by simp))]
    | cons y ys =>
      rw [joinSep_cons _ _ _ (by simp)]
      have hre : x ++ ['/'] ++ joinSep ['/'] (y :: ys) = x ++ '/' :: joinSep ['/'] (y :: ys) := by
        simp
      rw [hre, splitOnChar_append_sep, splitOnChar_of_not_mem '/' x (h x (by simp)),
        ih (by simp) (fun t ht => h t (by simp [ht]))]
      simp

theorem filter_ne_nil_eq_self (xs : List (List Char)) (h : ∀ x ∈ xs, x ≠ []) :
    xs.filter (fun q => !q.isEmpty) = xs := by
  induction xs with
  | nil => rfl
  | cons x rest ih =>
    have hx : (!x.isEmpty) = true := by simp [h x (by simp)]
    simp [List.filter_cons, hx, ih (fun t ht => h t (by simp [ht]))]

theorem getLast?_ne_slash_of_not_mem (x : List Char) (hx1 : x ≠ []) (hx2 : '/' ∉ x) :
    x.getLast? ≠ some '/' := by
  intro hl
  have hmem : '/' ∈ x.getLast? := by rw [Option.mem_def, hl]
  obtain ⟨hh, hx⟩ := List.mem_getLast?_eq_getLast hmem
  exact hx2 (hx ▸ List.getLast_mem hh)

theorem getLast?_joinSep_not_slash (segs : List (List Char)) (hne : segs ≠ [])
    (h : ∀ s ∈ segs, s ≠ [] ∧ '/' ∉ s) :
    (joinSep ['/'] segs).getLast? ≠ some '/' := by
  induction segs with
  | nil => contradiction
  | cons x xs ih =>
    cases xs with
    | nil =>
      obtain ⟨hx1, hx2⟩ := h x (by simp)
      simpa [joinSep] using getLast?_ne_slash_of_not_mem x hx1 hx2
    | cons y ys =>
      rw [joinSep_cons _ _ _ (by simp)]
      have hJ : joinSep ['/'] (y :: ys) ≠ [] :=
        joinSep_ne_nil _ _ (by simp) (fun t ht => (h t (by simp [ht])).1)
      rw [List.getLast?_append_of_ne_nil _ hJ]
      exact ih (by simp) (fun t ht => h t (by simp [ht]))

/-! ## MD5 digest shape lemmas -/

theorem md5Bytes_length (bytes : List Nat) : (md5Bytes bytes).length = 16 := by
  simp [md5Bytes, leBytes4]

theorem hexOfBytes_length (bs : List Nat) : (hexOfBytes bs).length = 2 * bs.length := by
  induction bs with
  | nil => simp [hexOfBytes]
  | cons b rest ih =>
    simp only [hexOfBytes, List.length_cons, ih]
    omega

theorem hexChar_mem (n : Nat) : hexChar n ∈ hexCharset := by
  unfold hexChar
  rcases Nat.lt_or_ge n 16 with h | h
  · interval_cases n <;> decide
  · rw [List.getD_eq_default]
    · decide
    · have h16 : hexCharset.length = 16 := rfl
      omega

theorem mem_hexOfBytes (bs : List Nat) : ∀ c ∈ hexOfBytes bs, c ∈ hexCharset := by
  induction bs with
  | nil => simp [hexOfBytes]
  | cons b rest ih =>
    intro c hc
    simp only [hexOfBytes, List.mem_cons] at hc
    rcases hc with h | h | h
    · exact h ▸ hexChar_mem _
    · exact h ▸ hexChar_mem _
    · exact ih c h

theorem md5hex_length (s : List Char) : (md5hex s).length = 32 := by
  rw [md5hex, hexOfBytes_length, md5Bytes_length]

theorem md5hex_not_slash (s : List Char) : '/' ∉ md5hex s := by
  intro h
  exact absurd (mem_hexOfBytes _ _ h) (by decide)

/-! ## Path join lemmas -/

theorem foldl_normStep_clean (ar : Bool) :
    ∀ (segs : List (List Char)) (acc : List (List Char)),
      (∀ s ∈ segs, cleanSeg s) → segs.foldl (normStep ar) acc = segs.reverse ++ acc := by
  intro segs
  induction segs with
  | nil => intro acc h; simp
  | cons s rest ih =>
    intro acc h
    obtain ⟨h1, h2, h3, h4⟩ := h s (by simp)
    have hstep : normStep ar acc s = s :: acc := by
      simp [normStep, h1, h3, h4]
    rw [List.foldl_cons, hstep, ih (s :: acc) (fun t ht => h t (by simp [ht]))]
    simp

theorem normalizePath_abs_clean (rtail : List Char) (segs : List (List Char))
    (hrclean : ∀ s ∈ splitOnChar '/' rtail, cleanSeg s)
    (hs : segs ≠ []) (hc : ∀ s ∈ segs, cleanSeg s) :
    normalizePath (('/' :: rtail) ++ '/' :: joinSep ['/'] segs) =
      ('/' :: rtail) ++ '/' :: joinSep ['/'] segs := by
  have hsegne : ∀ s ∈ segs, s ≠ [] := fun s h => (hc s h).1
  have hsegslash : ∀ s ∈ segs, '/' ∉ s := fun s h => (hc s h).2.1
  have hJne : joinSep ['/'] segs ≠ [] := joinSep_ne_nil _ _ hs hsegne
  have hrne : splitOnChar '/' rtail ≠ [] := splitOnChar_ne_nil '/' rtail
  have hrtail : joinSep ['/'] (splitOnChar '/' rtail) = rtail := joinSep_splitOnChar '/' rtail
  have hw : ('/' :: rtail) ++ '/' :: joinSep ['/'] segs =
      '/' :: (rtail ++ '/' :: joinSep ['/'] segs) := by simp
  have hsplit : splitOnChar '/' (('/' :: rtail) ++ '/' :: joinSep ['/'] segs) =
      [] :: (splitOnChar '/' rtail ++ segs) := by
    rw [hw]
    have h1 : splitOnChar '/' ('/' :: (rtail ++ '/' :: joinSep ['/'] segs)) =
        [] :: splitOnChar '/' (rtail ++ '/' :: joinSep ['/'] segs) := by
      simp [splitOnChar]
    rw [h1, splitOnChar_append_sep, splitOnChar_joinSep segs hs hsegslash]
  have hclean2 : ∀ s ∈ splitOnChar '/' rtail ++ segs, cleanSeg s := by
    intro s hmem
    rcases List.mem_append.mp hmem with h | h
    · exact hrclean s h
    · exact hc s h
  have hfold : ((splitOnChar '/' (('/' :: rtail) ++ '/' :: joinSep ['/'] segs)).foldl
      (normStep false) []) = (splitOnChar '/' rtail ++ segs).reverse := by
    rw [hsplit, List.foldl_cons]
    have h0 : normStep false ([] : List (List Char)) ([] : List Char) = [] := by
      simp [normStep]
    rw [h0, foldl_normStep_clean false (splitOnChar '/' rtail ++ segs) [] hclean2]
    simp
  have hcore : joinSep ['/'] (splitOnChar '/' rtail ++ segs) =
      rtail ++ '/' :: joinSep ['/'] segs := by
    rw [joinSep_append _ _ _ hrne hs, hrtail]
    simp
  have hlastw : (('/' :: rtail) ++ '/' :: joinSep ['/'] segs).getLast? ≠ some '/' := by
    rw [List.getLast?_append_of_ne_nil _ (by simp : ('/' :: joinSep ['/'] segs) ≠ [])]
    have hsplitJ : ('/' : Char) :: joinSep ['/'] segs = ['/'] ++ joinSep ['/'] segs := rfl
    rw [hsplitJ, List.getLast?_append_of_ne_nil _ hJne]
    exact getLast?_joinSep_not_slash segs hs (fun s h => ⟨hsegne s h, hsegslash s h⟩)
  have hnonnil : (('/' :: rtail) ++ '/' :: joinSep ['/'] segs) ≠ [] := by simp
  have hheadw : (('/' :: rtail) ++ '/' :: joinSep ['/'] segs).headI = '/' := by
    rw [hw]
    rfl
  rw [normalizePath, if_neg hnonnil, hheadw]
  have habs : (('/' : Char) == '/') = true := by decide
  rw [habs, Bool.not_true, hfold, List.reverse_reverse, hcore]
  have htrail : ((('/' :: rtail) ++ '/' :: joinSep ['/'] segs).getLast? == some '/') = false := by
    simpa using hlastw
  rw [htrail, normAssemble]
  have hcorene : rtail ++ '/' :: joinSep ['/'] segs ≠ [] := by simp
  rw [if_neg hcorene]
  simp

theorem pathJoin_clean (root : List Char) (segs : List (List Char))
    (hr : rootOk root) (hs : segs ≠ []) (hc : ∀ s ∈ segs, cleanSeg s) :
    pathJoin (root :: segs) = root ++ '/' :: joinSep ['/'] segs := by
  obtain ⟨hhead, hne, hlast, hsegs⟩ := hr
  obtain ⟨ch, rtail, hroot⟩ : ∃ ch t, root = ch :: t := by
    cases root with
    | nil => exact absurd rfl hne
    | cons ch t => exact ⟨ch, t, rfl⟩
  subst hroot
  have hch : ch = '/' := by simpa using hhead
  subst hch
  have hsegne : ∀ s ∈ segs, s ≠ [] := fun s h => (hc s h).1
  have hfilter : ((('/' :: rtail) :: segs).filter (fun q => !q.isEmpty)) =
      ('/' :: rtail) :: segs := by
    apply filter_ne_nil_eq_self
    intro x hx
    rcases List.mem_cons.mp hx with h | h
    · simp [h]
    · exact hsegne x h
  have hjoined : joinSep ['/'] (('/' :: rtail) :: segs) =
      ('/' :: rtail) ++ '/' :: joinSep ['/'] segs := by
    rw [joinSep_cons _ _ _ hs]
    simp
  rw [pathJoin]
  simp only [hfilter, hjoined]
  rw [if_neg (by simp : (('/' :: rtail) ++ '/' :: joinSep ['/'] segs) ≠ [])]
  exact normalizePath_abs_clean rtail segs hsegs hs hc

theorem rootOk_extend (root seg : List Char) (hr : rootOk root) (hseg : cleanSeg seg) :
    rootOk (root ++ '/' :: seg) := by
  obtain ⟨hhead, hne, hlast, hsegs⟩ := hr
  obtain ⟨ch, rtail, hroot⟩ : ∃ ch t, root = ch :: t := by
    cases root with
    | nil => exact absurd rfl hne
    | cons ch t => exact ⟨ch, t, rfl⟩
  subst hroot
  have hch : ch = '/' := by simpa using hhead
  subst hch
  refine ⟨by simp, by simp, ?_, ?_⟩
  · rw [List.getLast?_append_of_ne_nil _ (by simp : ('/' :: seg) ≠ [])]
    have hsplitJ : ('/' : Char) :: seg = ['/'] ++ seg := rfl
    rw [hsplitJ, List.getLast?_append_of_ne_nil _ hseg.1]
    exact getLast?_ne_slash_of_not_mem seg hseg.1 hseg.2.1
  · intro s hs
    have htail : ((('/' :: rtail) ++ '/' :: seg).tail) = rtail ++ '/' :: seg := by simp
    rw [htail, splitOnChar_append_sep, splitOnChar_of_not_mem '/' seg hseg.2.1] at hs
    rcases List.mem_append.mp hs with h | h
    · exact hsegs s h
    · rw [List.mem_singleton.mp h]
      exact hseg

/-! ## Scanner lemmas -/

theorem length_dropWhile_le (p : Char → Bool) (l : List Char) :
    (l.dropWhile p).length ≤ l.length := by
  induction l with
  | nil => simp
  | cons x xs ih =>
    rw [List.dropWhile_cons]
    split
    · exact le_trans ih (by simp)
    · simp

theorem expectChar_some {c : Char} {s r : List Char} (h : expectChar c s = some r) :
    r.length < s.length := by
  cases s with
  | nil => simp [expectChar] at h
  | cons x rest =>
    simp only [expectChar] at h
    split at h
    · cases h
      simp
    · cases h

theorem expectLit_some {pat s r : List Char} (h : expectLit pat s = some r) :
    r.length ≤ s.length := by
  simp only [expectLit] at h
  split at h
  · cases h
    simp
  · cases h

theorem takeClass1_some {p : Char → Bool} {s pre r : List Char}
    (h : takeClass1 p s = some (pre, r)) : pre ≠ [] ∧ r.length < s.length := by
  simp only [takeClass1] at h
  split at h
  · cases h
  · rename_i hne
    have h1 : s.takeWhile p = pre := congrArg Prod.fst (Option.some.inj h)
    have h2 : s.dropWhile p = r := congrArg Prod.snd (Option.some.inj h)
    subst h1
    subst h2
    refine ⟨hne, ?_⟩
    cases s with
    | nil => simp at hne
    | cons x xs =>
      rw [List.dropWhile_cons]
      by_cases hx : p x
      · simp only [hx, if_true]
        exact Nat.lt_succ_of_le (length_dropWhile_le p xs)
      · rw [List.takeWhile_cons, if_neg hx] at hne
        simp at hne

theorem expectClass_some {e : Bool} {s r : List Char} (h : expectClass e s = some r) :
    r.length < s.length := by
  cases s with
  | nil => simp [expectClass] at h
  | cons c t =>
    simp only [expectClass] at h
    split at h
    · cases h
      simp
    · cases h

theorem matchMarkerCore_some {e : Bool} {s inner ident rest : List Char}
    (h : matchMarkerCore e s = some (inner, ident, rest)) :
    rest.length < s.length ∧ inner ≠ [] ∧ ident ≠ [] := by
  unfold matchMarkerCore at h
  simp only [Option.bind_eq_some, Option.map_eq_some'] at h
  obtain ⟨t, h1, ⟨inner0, t1⟩, h2, t1b, h3, t2, h4, t3, h5, t4, h6, ⟨ws, t5⟩, h7,
    t6, h8, ⟨ident0, t7⟩, h9, t8, h10, rest0, h11, heq⟩ := h
  obtain ⟨hi, hd, hr⟩ : inner0 = inner ∧ ident0 = ident ∧ rest0 = rest := by
    simpa using heq
  subst hi
  subst hd
  subst hr
  have l1 := expectChar_some h1
  obtain ⟨hinner, l2⟩ := takeClass1_some h2
  have l3 := expectChar_some h3
  have l4 := expectChar_some h4
  have l5 := expectClass_some h5
  have l6 := expectLit_some h6
  obtain ⟨_, l7⟩ := takeClass1_some h7
  have l8 := expectLit_some h8
  obtain ⟨hident, l9⟩ := takeClass1_some h9
  have l10 := expectChar_some h10
  have l11 := expectChar_some h11
  refine ⟨?_, hinner, hident⟩
  simp only at h3 h8 h10 l3 l8 l10
  omega

theorem findMarkerG_some {e : Bool} : ∀ {s before inner ident rest : List Char},
    findMarkerG e s = some (before, inner, ident, rest) →
    rest.length < s.length ∧ inner ≠ [] := by
  intro s
  induction s with
  | nil =>
    intro before inner ident rest h
    simp [findMarkerG] at h
  | cons c t ih =>
    intro before inner ident rest h
    rw [findMarkerG] at h
    rcases hm : matchMarkerCore e (c :: t) with _ | ⟨i0, d0, r0⟩ <;> rw [hm] at h
    · simp only [Option.map_eq_some'] at h
      obtain ⟨⟨b1, i1, d1, r1⟩, hf, heq⟩ := h
      obtain ⟨hb, hi, hd, hr⟩ : c :: b1 = before ∧ i1 = inner ∧ d1 = ident ∧ r1 = rest := by
        simpa using heq
      subst hb
      subst hi
      subst hd
      subst hr
      obtain ⟨hl, hne⟩ := ih hf
      exact ⟨by simp; omega, hne⟩
    · obtain ⟨hb, hi, hd, hr⟩ : ([] : List Char) = before ∧ i0 = inner ∧ d0 = ident ∧ r0 = rest := by
        simpa using h
      subst hb
      subst hi
      subst hd
      subst hr
      obtain ⟨hl, hne, _⟩ := matchMarkerCore_some hm
      exact ⟨hl, hne⟩

theorem scanTextF_congr : ∀ (f1 f2 : Nat) (s : List Char),
    s.length ≤ f1 → s.length ≤ f2 → scanTextF f1 s = scanTextF f2 s := by
  intro f1
  induction f1 with
  | zero =>
    intro f2 s h1 h2
    have hs : s = [] := List.eq_nil_of_length_eq_zero (Nat.le_zero.mp h1)
    subst hs
    cases f2 <;> simp [scanTextF, findMarkerG]
  | succ g ih =>
    intro f2 s h1 h2
    cases f2 with
    | zero =>
      have hs : s = [] := List.eq_nil_of_length_eq_zero (Nat.le_zero.mp h2)
      subst hs
      simp [scanTextF, findMarkerG]
    | succ g2 =>
      rcases hf : findMarkerG false s with _ | ⟨before, inner, ident, rest⟩
      · simp only [scanTextF, hf]
      · obtain ⟨hlen, _⟩ := findMarkerG_some hf
        simp only [scanTextF, hf]
        rw [ih g2 rest (by omega) (by omega)]

theorem scanText_eq (s : List Char) :
    scanText s =
      match findMarkerG false s with
      | none => if s = [] then [] else [⟨s, []⟩]
      | some (before, inner, ident, rest) =>
        (if before = [] then [] else [⟨before, []⟩]) ++ ⟨inner, [ident]⟩ :: scanText rest := by
  rcases hf : findMarkerG false s with _ | ⟨before, inner, ident, rest⟩
  · cases hs : s with
    | nil => simp [scanText, scanTextF, findMarkerG]
    | cons c t =>
      rw [hs] at hf
      simp [scanText, scanTextF, hf]
  · obtain ⟨hlen, _⟩ := findMarkerG_some hf
    have hpos : 1 ≤ s.length := by omega
    obtain ⟨n, hn⟩ : ∃ n, s.length = n + 1 := ⟨s.length - 1, by omega⟩
    rw [scanText, hn]
    simp only [scanTextF, hf]
    rw [show scanText rest = scanTextF rest.length rest from rfl,
      scanTextF_congr n rest.length rest (by omega) (le_refl _)]

theorem replaceMarkersF_congr : ∀ (f1 f2 : Nat) (s : List Char),
    s.length ≤ f1 → s.length ≤ f2 → replaceMarkersF f1 s = replaceMarkersF f2 s := by
  intro f1
  induction f1 with
  | zero =>
    intro f2 s h1 h2
    have hs : s = [] := List.eq_nil_of_length_eq_zero (Nat.le_zero.mp h1)
    subst hs
    cases f2 <;> simp [replaceMarkersF, findMarkerG]
  | succ g ih =>
    intro f2 s h1 h2
    cases f2 with
    | zero =>
      have hs : s = [] := List.eq_nil_of_length_eq_zero (Nat.le_zero.mp h2)
      subst hs
      simp [replaceMarkersF, findMarkerG]
    | succ g2 =>
      rcases hf : findMarkerG false s with _ | ⟨before, inner, ident, rest⟩
      · simp only [replaceMarkersF, hf]
      · obtain ⟨hlen, _⟩ := findMarkerG_some hf
        simp only [replaceMarkersF, hf]
        rw [ih g2 rest (by omega) (by omega)]

theorem replaceMarkers_eq (s : List Char) :
    replaceMarkers s =
      match findMarkerG false s with
      | none => s
      | some (before, inner, _, rest) => before ++ inner ++ replaceMarkers rest := by
  rcases hf : findMarkerG false s with _ | ⟨before, inner, ident, rest⟩
  · cases hs : s with
    | nil => simp [replaceMarkers, replaceMarkersF]
    | cons c t =>
      rw [hs] at hf
      simp [replaceMarkers, replaceMarkersF, hf]
  · obtain ⟨hlen, _⟩ := findMarkerG_some hf
    obtain ⟨n, hn⟩ : ∃ n, s.length = n + 1 := ⟨s.length - 1, by omega⟩
    rw [replaceMarkers, hn]
    simp only [replaceMarkersF, hf]
    rw [show replaceMarkers rest = replaceMarkersF rest.length rest from rfl,
      replaceMarkersF_congr n rest.length rest (by omega) (le_refl _)]

theorem concatTexts_append (a b : List PMTextNode) :
    concatTexts (a ++ b) = concatTexts a ++ concatTexts b := by
  simp [concatTexts]

theorem concatTexts_cons (g : PMTextNode) (rest : List PMTextNode) :
    concatTexts (g :: rest) = g.text ++ concatTexts rest := by
  simp [concatTexts]

theorem concatTexts_nil : concatTexts [] = [] := rfl

theorem scan_concat_nonempty : ∀ (n : Nat) (s : List Char), s.length ≤ n →
    concatTexts (scanText s) = replaceMarkers s ∧ ∀ g ∈ scanText s, g.text ≠ [] := by
  intro n
  induction n with
  | zero =>
    intro s h
    have hs : s = [] := List.eq_nil_of_length_eq_zero (Nat.le_zero.mp h)
    subst hs
    constructor
    · simp [scanText, scanTextF, replaceMarkers, replaceMarkersF, concatTexts]
    · intro g hg
      simp [scanText, scanTextF] at hg
  | succ m ih =>
    intro s hs
    rw [scanText_eq, replaceMarkers_eq]
    rcases hf : findMarkerG false s with _ | ⟨before, inner, ident, rest⟩
    · by_cases hEmpty : s = []
      · subst hEmpty
        constructor
        · simp [concatTexts]
        · intro g hg
          simp at hg
      · rw [if_neg hEmpty]
        constructor
        · simp [concatTexts]
        · intro g hg
          simp at hg
          simp [hg, hEmpty]
    · obtain ⟨hlen, hinner⟩ := findMarkerG_some hf
      obtain ⟨ihc, ihn⟩ := ih rest (by omega)
      constructor
      · by_cases hb : before = []
        · simp [hb, concatTexts_cons, ihc]
        · simp [hb, concatTexts_append, concatTexts_cons, concatTexts_nil, ihc,
            List.append_assoc]
      · intro g hg
        rw [List.mem_append] at hg
        rcases hg with hg | hg
        · by_cases hb : before = []
          · rw [hb] at hg
            simp at hg
          · rw [if_neg hb] at hg
            rw [List.mem_singleton.mp hg]
            exact hb
        · rcases List.mem_cons.mp hg with hg | hg
          · rw [hg]
            exact hinner
          · exact ihn g hg

/-! ## Front matter and basename lemmas -/

theorem takeWhile_append_stop (p : List Char → Bool) (a : List (List Char)) (z : List Char)
    (b : List (List Char)) (ha : ∀ x ∈ a, p x = true) (hz : p z = false) :
    (a ++ z :: b).takeWhile p = a ∧ (a ++ z :: b).dropWhile p = z :: b := by
  induction a with
  | nil => simp [List.takeWhile_cons, List.dropWhile_cons, hz]
  | cons x xs ih =>
    have hx := ha x (by simp)
    obtain ⟨ih1, ih2⟩ := ih (fun t ht => ha t (by simp [ht]))
    simp [List.takeWhile_cons, List.dropWhile_cons, hx, ih1, ih2]

theorem matterSplit_well_formed (y body : List Char)
    (hy : fmDelim ∉ splitOnChar '\n' y) :
    matterSplit (fmDelim ++ '\n' :: y ++ '\n' :: fmDelim ++ '\n' :: body) = (some y, body) := by
  have hfm : splitOnChar '\n' fmDelim = [fmDelim] :=
    splitOnChar_of_not_mem _ _ (by decide)
  have hsplit : splitOnChar '\n' (fmDelim ++ '\n' :: y ++ '\n' :: fmDelim ++ '\n' :: body) =
      fmDelim :: (splitOnChar '\n' y ++ fmDelim :: splitOnChar '\n' body) := by
    rw [splitOnChar_append_sep, splitOnChar_append_sep, splitOnChar_append_sep, hfm]
    simp
  have hstop := takeWhile_append_stop (fun l => !(l == fmDelim))
    (splitOnChar '\n' y) fmDelim (splitOnChar '\n' body)
    (fun x hx => by
      have hne : x ≠ fmDelim := fun he => hy (he ▸ hx)
      simp [hne])
    (by simp)
  unfold matterSplit
  rw [hsplit]
  simp only [if_pos rfl, hstop.1, hstop.2, joinSep_splitOnChar]
  simp

theorem getLastD_mem (l : List (List Char)) (h : l ≠ []) : ∀ d, l.getLastD d ∈ l := by
  induction l with
  | nil => contradiction
  | cons x xs ih =>
    intro d
    cases hx : xs with
    | nil =>
      subst hx
      simp [List.getLastD]
    | cons y ys =>
      subst hx
      exact List.mem_cons_of_mem x (ih (by simp) x)

theorem baseNameOf_not_slash (s : List Char) : '/' ∉ baseNameOf s := by
  have hne := splitOnChar_ne_nil '/' ((s.reverse.dropWhile (fun c => c == '/')).reverse)
  exact mem_splitOnChar_not_mem '/' _ _ (getLastD_mem _ hne [])

theorem parseNameOf_not_slash (s : List Char) : '/' ∉ parseNameOf s := by
  have hbase := baseNameOf_not_slash s
  unfold parseNameOf
  by_cases h1 : baseNameOf s = ['.', '.']
  · simp only [if_pos h1]
    exact hbase
  · rw [if_neg h1]
    rcases hidx : (baseNameOf s).reverse.findIdx? (fun c => c == '.') with _ | rid
    · exact hbase
    · dsimp only
      split
      · exact hbase
      · intro hmem
        exact hbase (List.take_subset _ _ hmem)

/-! ## Node loop lemmas -/

theorem processNodes_append (exec : ChunkExec) (a b : List MdastBlock) :
    processNodes exec (a ++ b) = processNodes exec a ++ processNodes exec b := by
  induction a with
  | nil => rfl
  | cons n rest ih => simp [processNodes, ih, List.append_assoc]

/-! # Claim theorems -/

/-- Claim C3: the code at the failing input.  The scan of the text run
[w]{Xcomment ref="c1"} emits a comment-marked segment w with id c1, although
the run holds no marker of the documented exact form (the exact-form rewriter
leaves the run unchanged, witnessing that the exact pattern matches nowhere in
it).  The unescaped dot of the source regex accepts any non-line-terminator
character where the documented syntax requires the literal dot. -/
theorem c3_loose_class_match :
    scanText pseudoMarkerRun = [⟨"w".toList, ["c1".toList]⟩] ∧
      replaceExactMarkers pseudoMarkerRun = pseudoMarkerRun := by
  decide

/-- Claim C7, counterexample: a heading with an emphasis child.  The parser
emits the heading text a-space (the emphasis child has no value read and
contributes nothing), not the flattened plain text a-space-b of all inline
content, so the claim as stated fails at this input. -/
theorem c7_counterexample :
    ¬ (processNodes execOk [MdastBlock.heading 1 emphasisHeadingChildren] =
        [PMNode.heading 1 [⟨flattenInlines emphasisHeadingChildren, []⟩]]) := by
  have hf : flattenInlines emphasisHeadingChildren = "a b".toList := by
    simp only [emphasisHeadingChildren, flattenInlines]
    decide
  intro h
  rw [hf] at h
  exact (by decide : processNodes execOk [MdastBlock.heading 1 emphasisHeadingChildren] ≠
    [PMNode.heading 1 [⟨"a b".toList, []⟩]]) h

/-- Claim C7 (amended): for every top-level heading the parser emits one
heading node whose level equals the source depth and whose content is a single
text node holding the join of the direct children value reads, children
without a literal value (emphasis, strong) contributing the empty string;
nested inline content is dropped, not flattened. -/
theorem c7_heading_direct_values (exec : ChunkExec) (pre post : List MdastBlock)
    (depth : Nat) (children : List MdastInline) :
    processNodes exec (pre ++ MdastBlock.heading depth children :: post) =
      processNodes exec pre ++
        PMNode.heading depth [⟨headingDirectText children, []⟩] :: processNodes exec post := by
  rw [processNodes_append]
  have hjoin : (children.map (fun c => (jsInlineValue c).getD [])).flatten =
      headingDirectText children := by
    induction children with
    | nil => rfl
    | cons c rest ih => simp [headingDirectText, ih]
  simp [processNodes, emitNode, hjoin]

/-- Claim C8: the loop pushes nodes in source order, each block contributing
its converted node if it is a heading, a paragraph or a language-tagged code
block, and nothing at all otherwise: the loop equals an order-preserving
filterMap, and unhandled block kinds (lists, blockquotes, tables, tagged here
as other) and untagged code blocks are dropped without failing the parse. -/
theorem c8_source_order_filterMap (exec : ChunkExec) (nodes : List MdastBlock) :
    processNodes exec nodes = nodes.filterMap (convertBlock exec) ∧
      (∀ tag, convertBlock exec (MdastBlock.other tag) = none) ∧
      (∀ value, convertBlock exec (MdastBlock.code none value) = none) := by
  refine ⟨?_, fun tag => rfl, fun value => rfl⟩
  induction nodes with
  | nil => rfl
  | cons n rest ih =>
    rw [show processNodes exec (n :: rest) = emitNode exec n ++ processNodes exec rest from rfl,
      List.filterMap_cons]
    cases n with
    | code lang value =>
      cases hl : langTruthy lang <;> simp [emitNode, convertBlock, hl, ih]
    | heading d cs => simp [emitNode, convertBlock, ih]
    | paragraph cs => simp [emitNode, convertBlock, ih]
    | other t => simp [emitNode, convertBlock, ih]

/-- Claim C9: a top-level fenced code block without a language tag produces no
node at all: the loop output around it is unchanged and the block alone
produces the empty node list (so no quartoBlock exists for it and the Chunk
Renderer output does not occur in the tree). -/
theorem c9_untagged_code_dropped (exec : ChunkExec) (pre post : List MdastBlock)
    (lang : Option (List Char)) (value : List Char) (h : langTruthy lang = false) :
    processNodes exec (pre ++ MdastBlock.code lang value :: post) =
        processNodes exec pre ++ processNodes exec post ∧
      processNodes exec [MdastBlock.code lang value] = [] := by
  constructor
  · rw [processNodes_append]
    simp [processNodes, emitNode, h]
  · simp [processNodes, emitNode, h]

/-- Witness for claim C9 at a concrete untagged code block. -/
theorem c9_untagged_code_dropped_wit :
    langTruthy none = false ∧
      (processNodes execOk ([] ++ MdastBlock.code none "x".toList :: []) =
          processNodes execOk [] ++ processNodes execOk [] ∧
        processNodes execOk [MdastBlock.code none "x".toList] = []) :=
  ⟨rfl, c9_untagged_code_dropped execOk [] [] none "x".toList rfl⟩

/-- Claim C10, counterexample: at the text run with the pseudo-marker
[w]{Ycomment ref="q"} the concatenation of the emitted segment texts is not
the run with exact-form markers replaced (there is no exact-form marker in the
run, yet the scanner rewrote the pseudo-marker), so the claim as stated fails
at this input. -/
theorem c10_counterexample :
    ¬ (concatTexts (scanText pseudoMarkerRun2) = replaceExactMarkers pseudoMarkerRun2 ∧
        ∀ g ∈ scanText pseudoMarkerRun2, g.text ≠ []) := by
  decide

/-- Claim C10 (amended): for every plain text run, the concatenation of the
texts of the emitted segments equals the run with every marker the source
scanner matches (the pattern with any non-line-terminator character in the
class position) replaced by its inner text, and no emitted segment is the
empty string. -/
theorem c10_concat_amended (s : List Char) :
    concatTexts (scanText s) = replaceMarkers s ∧ ∀ g ∈ scanText s, g.text ≠ [] :=
  scan_concat_nonempty s.length s (le_refl _)

/-- Claim C1: a chunk-execution failure from the external Chunk Renderer does
not abort qmdToProseMirror.  Whenever the parsed body is any surrounding
blocks around a language-tagged code block whose execution fails, the returned
tree still holds the nodes of all other blocks, in place, and the failure is
captured as an error payload inside the output field of the quartoBlock of the
failing chunk, not propagated as an exception (the parse is a total function).
The Chunk Renderer boundary is modelled from the spec: quartoRunner.js is not
included under src/, and per the spec a failure is representable as output. -/
theorem c1_chunk_failure_captured (exec : ChunkExec) (qmd code lang e : List Char)
    (pre post : List MdastBlock)
    (hparse : remarkParse (matterSplit (extractCommentsAppendix qmd).2).2 =
      pre ++ MdastBlock.code (some lang) code :: post)
    (hlang : lang ≠ [])
    (hfail : exec code lang = Except.error e) :
    (qmdToProseMirror exec qmd).1.content =
      processNodes exec pre ++
        PMNode.quartoBlock code lang (ChunkOutput.err e) :: processNodes exec post := by
  have hcontent : (qmdToProseMirror exec qmd).1.content =
      processNodes exec (remarkParse (matterSplit (extractCommentsAppendix qmd).2).2) := rfl
  rw [hcontent, hparse, processNodes_append]
  have htr : langTruthy (some lang) = true := by simp [langTruthy, hlang]
  simp [processNodes, emitNode, htr, renderChunk, hfail]

/-- Witness for claim C1: a document whose only chunk fails to render; the
paragraph after it still renders and the error payload sits in the
quartoBlock. -/
theorem c1_chunk_failure_captured_wit :
    remarkParse (matterSplit (extractCommentsAppendix qmdFailingChunk).2).2 =
        [] ++ MdastBlock.code (some "r".toList) "1+1".toList ::
          [MdastBlock.paragraph [MdastInline.text "Hi".toList]] ∧
      "r".toList ≠ [] ∧
      execBoom "1+1".toList "r".toList = Except.error "boom".toList ∧
      (qmdToProseMirror execBoom qmdFailingChunk).1.content =
        processNodes execBoom [] ++
          PMNode.quartoBlock "1+1".toList "r".toList (ChunkOutput.err "boom".toList) ::
            processNodes execBoom [MdastBlock.paragraph [MdastInline.text "Hi".toList]] :=
  ⟨rfl, by decide, rfl,
    c1_chunk_failure_captured execBoom qmdFailingChunk "1+1".toList "r".toList "boom".toList
      [] [MdastBlock.paragraph [MdastInline.text "Hi".toList]] rfl (by decide) rfl⟩

/-- Claim C2: the scenario document (heading, paragraph with one comment span,
appendix entry c1) parses to exactly two nodes in order: a level-one heading
with text T and a paragraph whose content is the plain segment Hello-space
followed by the segment world marked with commentId c1; the appendix entry is
returned alongside.  The appendix delimiting is modelled from the spec since
commentUtils.js is not included under src/. -/
theorem c2_scenario :
    (qmdToProseMirror execOk qmdScenario).1.content =
        [PMNode.heading 1 [⟨"T".toList, []⟩],
         PMNode.paragraph [⟨"Hello ".toList, []⟩, ⟨"world".toList, ["c1".toList]⟩]] ∧
      (qmdToProseMirror execOk qmdScenario).2 = [⟨"c1".toList, "Looks good".toList⟩] := by
  decide

/-- Claim C4: the cache entry path is the rendered-documents cache root joined
with repoId-hash-commitRef.json, where the file-path component is the md5 hex
digest of the file path: fixed length 32 for every path, hence never the path
itself for a path of any other length; and the asset directory is the cache
root joined with assets, the repo id, the commit hash, and the document stem
with the fixed suffix.  Stated for separator-free id components and a
normalized absolute cache root, the shape path.join preserves. -/
theorem c4_cache_paths (dirname repoId docFilepath docFilename commitHash : List Char)
    (hroot : rootOk (cacheDirOf dirname))
    (hrepo : cleanSeg repoId) (hcommit : cleanSeg commitHash) :
    calculateCacheFilename dirname repoId docFilepath commitHash =
        cacheDirRenderedDocsOf dirname ++ '/' :: (repoId ++ '-' :: md5hex docFilepath ++
          '-' :: commitHash ++ ".json".toList) ∧
      (md5hex docFilepath).length = 32 ∧
      (docFilepath.length ≠ 32 → md5hex docFilepath ≠ docFilepath) ∧
      calculateAssetCacheDir dirname repoId docFilename commitHash =
        cacheDirOf dirname ++ '/' :: "assets".toList ++ '/' :: repoId ++ '/' :: commitHash ++
          '/' :: (parseNameOf docFilename ++ "_files".toList) := by
  obtain ⟨hr1, hr2, hr3, hr4⟩ := hrepo
  obtain ⟨hc1, hc2, hc3, hc4⟩ := hcommit
  have hrp : 0 < repoId.length := List.length_pos.mpr hr1
  have hdash : ("-".toList).length = 1 := rfl
  have hjson : (".json".toList).length = 5 := rfl
  have hfiles : ("_files".toList).length = 6 := rfl
  have hname : cleanSeg (repoId ++ "-".toList ++ md5hex docFilepath ++ "-".toList ++
      commitHash ++ ".json".toList) := by
    refine ⟨by simp [hr1], ?_, ?_, ?_⟩
    · intro hmem
      simp only [List.mem_append] at hmem
      rcases hmem with ((((hm | hm) | hm) | hm) | hm) | hm
      · exact hr2 hm
      · exact absurd hm (by decide)
      · exact md5hex_not_slash _ hm
      · exact absurd hm (by decide)
      · exact hc2 hm
      · exact absurd hm (by decide)
    · intro he
      have hl := congrArg List.length he
      simp only [List.length_append, md5hex_length, hdash, hjson, List.length_cons,
        List.length_nil] at hl
      omega
    · intro he
      have hl := congrArg List.length he
      simp only [List.length_append, md5hex_length, hdash, hjson, List.length_cons,
        List.length_nil] at hl
      omega
  have hstem : cleanSeg (parseNameOf docFilename ++ "_files".toList) := by
    refine ⟨by simp, ?_, ?_, ?_⟩
    · intro hm
      rcases List.mem_append.mp hm with hm | hm
      · exact parseNameOf_not_slash _ hm
      · exact absurd hm (by decide)
    · intro he
      have hl := congrArg List.length he
      simp only [List.length_append, hfiles, List.length_cons, List.length_nil] at hl
      omega
    · intro he
      have hl := congrArg List.length he
      simp only [List.length_append, hfiles, List.length_cons, List.length_nil] at hl
      omega
  have hren : cacheDirRenderedDocsOf dirname =
      cacheDirOf dirname ++ '/' :: "rendered_docs".toList := by
    have h := pathJoin_clean (cacheDirOf dirname) ["rendered_docs".toList] hroot (by simp)
      (by
        intro x hx
        rw [List.mem_singleton.mp hx]
        exact (by decide : cleanSeg "rendered_docs".toList))
    simpa [joinSep] using h
  have hrenOk : rootOk (cacheDirRenderedDocsOf dirname) := by
    rw [hren]
    exact rootOk_extend _ _ hroot (by decide)
  refine ⟨?_, md5hex_length _, ?_, ?_⟩
  · have h := pathJoin_clean (cacheDirRenderedDocsOf dirname)
      [repoId ++ "-".toList ++ md5hex docFilepath ++ "-".toList ++ commitHash ++ ".json".toList]
      hrenOk (by simp) (by
        intro x hx
        rw [List.mem_singleton.mp hx]
        exact hname)
    unfold calculateCacheFilename
    rw [h]
    simp [joinSep, List.append_assoc]
  · intro hl he
    have := congrArg List.length he
    rw [md5hex_length] at this
    exact hl this.symm
  · have hsegs : ∀ x ∈ ["assets".toList, repoId, commitHash,
        parseNameOf docFilename ++ "_files".toList], cleanSeg x := by
      intro x hx
      simp only [List.mem_cons, List.not_mem_nil, or_false] at hx
      rcases hx with hx | hx | hx | hx
      · rw [hx]; decide
      · rw [hx]; exact ⟨hr1, hr2, hr3, hr4⟩
      · rw [hx]; exact ⟨hc1, hc2, hc3, hc4⟩
      · rw [hx]; exact hstem
    have h := pathJoin_clean (cacheDirOf dirname)
      ["assets".toList, repoId, commitHash, parseNameOf docFilename ++ "_files".toList]
      hroot (by simp) hsegs
    unfold calculateAssetCacheDir
    rw [h]
    simp [joinSep, List.append_assoc]

/-- Witness for claim C4 at a concrete install directory and id components. -/
theorem c4_cache_paths_wit :
    rootOk (cacheDirOf "/srv/app".toList) ∧ cleanSeg "r1".toList ∧ cleanSeg "abc123".toList ∧
      (calculateCacheFilename "/srv/app".toList "r1".toList "docs/paper.qmd".toList
          "abc123".toList =
        cacheDirRenderedDocsOf "/srv/app".toList ++ '/' :: ("r1".toList ++
          '-' :: md5hex "docs/paper.qmd".toList ++ '-' :: "abc123".toList ++ ".json".toList) ∧
      (md5hex "docs/paper.qmd".toList).length = 32 ∧
      (("docs/paper.qmd".toList).length ≠ 32 →
        md5hex "docs/paper.qmd".toList ≠ "docs/paper.qmd".toList) ∧
      calculateAssetCacheDir "/srv/app".toList "r1".toList "paper.qmd".toList "abc123".toList =
        cacheDirOf "/srv/app".toList ++ '/' :: "assets".toList ++ '/' :: "r1".toList ++
          '/' :: "abc123".toList ++
          '/' :: (parseNameOf "paper.qmd".toList ++ "_files".toList)) :=
  ⟨by decide, by decide, by decide,
    c4_cache_paths "/srv/app".toList "r1".toList "docs/paper.qmd".toList "paper.qmd".toList
      "abc123".toList (by decide) (by decide) (by decide)⟩

/-- Claim C5: the cache key derivers are deterministic and read nothing from
the ambient process state except the fixed install directory: two calls in
environments that agree on the install directory but differ arbitrarily in
wall-clock time and process id return identical paths, for every argument
tuple. -/
theorem c5_deterministic (e1 e2 : ProcessEnv)
    (repoId docFilepath docFilename commitHash : List Char)
    (h : e1.dirname = e2.dirname) :
    calculateCacheFilenameCall e1 repoId docFilepath commitHash =
        calculateCacheFilenameCall e2 repoId docFilepath commitHash ∧
      calculateAssetCacheDirCall e1 repoId docFilename commitHash =
        calculateAssetCacheDirCall e2 repoId docFilename commitHash := by
  unfold calculateCacheFilenameCall calculateAssetCacheDirCall
  rw [h]
  exact ⟨rfl, rfl⟩

/-- Witness for claim C5: two environments with different clocks and process
ids and the same install directory. -/
theorem c5_deterministic_wit :
    (⟨0, 1, "/srv/app".toList⟩ : ProcessEnv).dirname =
        (⟨987654321, 4242, "/srv/app".toList⟩ : ProcessEnv).dirname ∧
      (calculateCacheFilenameCall ⟨0, 1, "/srv/app".toList⟩ "r1".toList "d.qmd".toList
            "c0ffee".toList =
          calculateCacheFilenameCall ⟨987654321, 4242, "/srv/app".toList⟩ "r1".toList
            "d.qmd".toList "c0ffee".toList ∧
        calculateAssetCacheDirCall ⟨0, 1, "/srv/app".toList⟩ "r1".toList "d.qmd".toList
            "c0ffee".toList =
          calculateAssetCacheDirCall ⟨987654321, 4242, "/srv/app".toList⟩ "r1".toList
            "d.qmd".toList "c0ffee".toList) :=
  ⟨rfl, c5_deterministic ⟨0, 1, "/srv/app".toList⟩ ⟨987654321, 4242, "/srv/app".toList⟩
    "r1".toList "d.qmd".toList "d.qmd".toList "c0ffee".toList rfl⟩

/-- Claim C6: a leading YAML front-matter block is split off the markdown body
and attached as the yaml attribute of the returned doc node, and the content
sequence of the tree is exactly the node-loop output over the body alone, so
no content node arises from the front matter. -/
theorem c6_front_matter (exec : ChunkExec) (qmd y body : List Char) (cs : List CommentEntry)
    (hex : extractCommentsAppendix qmd =
      (cs, fmDelim ++ '\n' :: y ++ '\n' :: fmDelim ++ '\n' :: body))
    (hy : fmDelim ∉ splitOnChar '\n' y) :
    (qmdToProseMirror exec qmd).1.yaml = some y ∧
      (qmdToProseMirror exec qmd).1.content = processNodes exec (remarkParse body) := by
  have h1 : (qmdToProseMirror exec qmd).1.yaml =
      (matterSplit (extractCommentsAppendix qmd).2).1 := rfl
  have h2 : (qmdToProseMirror exec qmd).1.content =
      processNodes exec (remarkParse (matterSplit (extractCommentsAppendix qmd).2).2) := rfl
  rw [h1, h2]
  simp only [hex]
  rw [matterSplit_well_formed y body hy]
  exact ⟨rfl, rfl⟩

/-- Witness for claim C6 at a concrete front-matter document. -/
theorem c6_front_matter_wit :
    extractCommentsAppendix qmdFrontMatter =
        ([], fmDelim ++ '\n' :: "title: x".toList ++ '\n' :: fmDelim ++
          '\n' :: "# H\nBody".toList) ∧
      fmDelim ∉ splitOnChar '\n' "title: x".toList ∧
      ((qmdToProseMirror execOk qmdFrontMatter).1.yaml = some "title: x".toList ∧
        (qmdToProseMirror execOk qmdFrontMatter).1.content =
          processNodes execOk (remarkParse "# H\nBody".toList)) :=
  ⟨rfl, by decide,
    c6_front_matter execOk qmdFrontMatter "title: x".toList "# H\nBody".toList [] rfl
      (by decide)⟩

end Quartorium
